import Mathlib

set_option maxRecDepth 8000

/-!
Verification of the auth-token migration script (`fix_all_auth_tokens.py`).

The script reads each file of a fixed nine-element list, applies two regex
substitutions in order to the whole text, and writes the file back only when
the text changed.  Texts are modelled as `List Char`.  The two regexes consist
only of literal fragments and one-or-more-whitespace separators, so matching
at a position is deterministic; `re.sub` is the usual leftmost, non-overlapping
scan, modelled by a fuel-indexed structural scanner.
-/

/-- Character class matched by the whitespace atom of a Python 3 `str` regex. -/
def isPySpace (c : Char) : Bool :=
  c = ' ' || c = '\t' || c = '\n' || c = '\x0b' || c = '\x0c' || c = '\r' ||
  c.val = 28 || c.val = 29 || c.val = 30 || c.val = 31 || c.val = 133 || c.val = 160 ||
  c.val = 0x1680 || (0x2000 ≤ c.val && c.val ≤ 0x200a) ||
  c.val = 0x2028 || c.val = 0x2029 || c.val = 0x202f || c.val = 0x205f || c.val = 0x3000

/-- First literal fragment of pattern 1, and the whole of pattern 2:
the statement reading the token from local storage. -/
def lit0 : List Char := "const token = localStorage.getItem(\x27auth_token\x27);".data

/-- Second literal fragment of pattern 1: the guard header. -/
def lit1 : List Char := "if (!token) \x7b".data

/-- Third literal fragment of pattern 1: the redirect statement. -/
def lit2 : List Char := "window.location.href = \x27/\x27;".data

/-- Fourth literal fragment of pattern 1: the abort statement. -/
def lit3 : List Char := "return;".data

/-- Fifth literal fragment of pattern 1: the closing brace of the guard. -/
def lit4 : List Char := "\x7d".data

/-- Replacement text of rule A (`replacement1` in the script). -/
def repl1 : List Char :=
  "// Get Supabase session token\n    const \x7b data: \x7b session \x7d \x7d = await window.supabase.auth.getSession();\n    if (!session) \x7b\n        window.location.href = \x27/index.html\x27;\n        return;\n    \x7d\n    const token = session.access_token;".data

/-- Replacement text of rule B (`replacement2` in the script). -/
def repl2 : List Char :=
  "const \x7b data: \x7b session \x7d \x7d = await window.supabase.auth.getSession();\n    const token = session?.access_token;".data

/-- Strip an exact literal from the front of a text, returning the remainder. -/
def stripLit : List Char → List Char → Option (List Char)
  | [], s => some s
  | _ :: _, [] => none
  | a :: as, c :: cs => if a = c then stripLit as cs else none

/-- Strip a maximal nonempty run of whitespace from the front of a text
(the greedy one-or-more-whitespace regex atom; the following fragment of both
patterns starts with a non-whitespace character, so greedy matching is exact). -/
def stripSp (s : List Char) : Option (List Char) :=
  match s with
  | [] => none
  | c :: cs => if isPySpace c then some (cs.dropWhile isPySpace) else none

/-- Matcher of pattern 1 (rule A) at the start of a text: the storage-read
statement, then whitespace, then the three-line falsy guard.  Returns the
remainder after the match. -/
def matchP1 (s : List Char) : Option (List Char) :=
  (stripLit lit0 s).bind fun s1 =>
  (stripSp s1).bind fun s2 =>
  (stripLit lit1 s2).bind fun s3 =>
  (stripSp s3).bind fun s4 =>
  (stripLit lit2 s4).bind fun s5 =>
  (stripSp s5).bind fun s6 =>
  (stripLit lit3 s6).bind fun s7 =>
  (stripSp s7).bind fun s8 =>
  stripLit lit4 s8

/-- Matcher of pattern 2 (rule B) at the start of a text: the bare
storage-read statement. -/
def matchP2 (s : List Char) : Option (List Char) := stripLit lit0 s

/-- Fuel-indexed left-to-right global substitution: at each position try the
matcher; on a match emit the replacement and resume after the match, otherwise
keep the character.  This is `re.sub` for a pattern whose match at a position
is unique. -/
def substF (m : List Char → Option (List Char)) (rep : List Char) : Nat → List Char → List Char
  | 0, s => s
  | _ + 1, [] => []
  | f + 1, c :: cs =>
    match m (c :: cs) with
    | some rest => rep ++ substF m rep f rest
    | none => c :: substF m rep f cs

/-- Global substitution with enough fuel (a match always consumes at least one
character, so `s.length` steps suffice). -/
def substT (m : List Char → Option (List Char)) (rep : List Char) (s : List Char) : List Char :=
  substF m rep s.length s

/-- Rule A: `re.sub(pattern1, replacement1, content)`. -/
def sub1 (s : List Char) : List Char := substT matchP1 repl1 s

/-- Rule B: `re.sub(pattern2, replacement2, content)`. -/
def sub2 (s : List Char) : List Char := substT matchP2 repl2 s

/-- The whole transformation of `fix_file`: rule A then rule B. -/
def applyRules (s : List Char) : List Char := sub2 (sub1 s)

/-- Does pattern 1 match at some position of the text? -/
def containsP1 : List Char → Bool
  | [] => false
  | c :: cs => (matchP1 (c :: cs)).isSome || containsP1 cs

/-- Does the text contain the bare storage-read statement (pattern 2)
as a substring? -/
def containsL : List Char → Bool
  | [] => false
  | c :: cs => (matchP2 (c :: cs)).isSome || containsL cs

/-- State of one path on disk: missing, readable with some text, or existing
but failing on read/decode/write. -/
inductive Entry where
  | absent : Entry
  | readable : List Char → Entry
  | unreadable : Entry

/-- A filesystem: contents indexed by path (paths are texts too). -/
def FSt : Type := List Char → Entry

/-- Overwrite one path of a filesystem. -/
def update (fs : FSt) (p : List Char) (c : List Char) : FSt :=
  fun q => if q = p then Entry.readable c else fs q

/-- The hardcoded directory joined with a file name (`os.path.join`). -/
def mkPath (n : List Char) : List Char := "frontend/assets/js/".data ++ n

/-- The fixed nine-file list of the script. -/
def filesToFix : List (List Char) :=
  ["billings.js".data, "chatbot-ai.js".data, "device-settings.js".data,
   "flow-builder.js".data, "flow-manager.js".data, "packages.js".data,
   "profile.js".data, "set-stage.js".data, "whatsapp-bot.js".data]

/-- Console line printed when a file was rewritten. -/
def fixedLine (p : List Char) : List Char := "✓ Fixed ".data ++ p

/-- Console line printed when a file existed but nothing matched. -/
def noChangeLine (p : List Char) : List Char := "- No changes needed in ".data ++ p

/-- Console line printed when a path does not exist. -/
def notFoundLine (p : List Char) : List Char := "✗ File not found: ".data ++ p

/-- The final summary line (the f-string starts with a newline). -/
def summaryLine (n : Nat) : List Char := "\nFixed ".data ++ (Nat.repr n).data ++ " files".data

/-- Model of `os.path.exists`: true also for files that exist but cannot
be read. -/
def pexists (fs : FSt) (p : List Char) : Bool :=
  match fs p with
  | Entry.absent => false
  | _ => true

/-- Model of `fix_file` on an existing path: read, transform, write back only
when changed.  Returns (changed, performed writes, console lines, new
filesystem); a read/decode/write failure is an uncaught exception, modelled as
`Except.error`. -/
def fixFile (fs : FSt) (p : List Char) :
    Except Unit (Bool × List (List Char × List Char) × List (List Char) × FSt) :=
  match fs p with
  | Entry.readable c =>
    let c2 := applyRules c
    if c2 = c then Except.ok (false, [], [noChangeLine p], fs)
    else Except.ok (true, [(p, c2)], [fixedLine p], update fs p c2)
  | _ => Except.error ()

/-- The loop of `main` over the remaining file names: produces the console
lines, and `some (count, fs)` on normal completion or `none` when an uncaught
exception aborted the run. -/
def loop : FSt → List (List Char) → Nat → List (List Char) × Option (Nat × FSt)
  | fs, [], acc => ([], some (acc, fs))
  | fs, n :: rest, acc =>
    if pexists fs (mkPath n) then
      match fixFile fs (mkPath n) with
      | Except.error _ => ([], none)
      | Except.ok (changed, _, out, fs2) =>
        (out ++ (loop fs2 rest (if changed then acc + 1 else acc)).1,
         (loop fs2 rest (if changed then acc + 1 else acc)).2)
    else
      (notFoundLine (mkPath n) :: (loop fs rest acc).1, (loop fs rest acc).2)

/-- Model of `main`: run the loop on the fixed list, then print the summary
line on normal completion; on an uncaught exception the lines printed so far
stand and no summary is printed. -/
def runMain (fs : FSt) : List (List Char) × Option Nat :=
  match loop fs filesToFix 0 with
  | (ls, some (n, _)) => (ls ++ [summaryLine n], some n)
  | (ls, none) => (ls, none)

/-- The filesystem resulting from one `fix_file` call (unchanged if the call
raised). -/
def fsAfter (fs : FSt) (p : List Char) : FSt :=
  match fixFile fs p with
  | Except.ok (_, _, _, f) => f
  | Except.error _ => fs

/-- The observable part of one `fix_file` call: changed flag, writes, console
lines (`none` when the call raised). -/
def fixOut (fs : FSt) (p : List Char) :
    Option (Bool × List (List Char × List Char) × List (List Char)) :=
  match fixFile fs p with
  | Except.ok (b, w, o, _) => some (b, w, o)
  | Except.error _ => none

/-- Classifier for rewritten-file console lines (they start with the check
mark; the other three line shapes start with a cross, a dash, or a newline). -/
def isFixB (l : List Char) : Bool :=
  match l with
  | c :: _ => c == '✓'
  | [] => false

/-- Classifier for the summary line (it starts with a newline). -/
def isSumB (l : List Char) : Bool :=
  match l with
  | c :: _ => c == '\n'
  | [] => false

/-- The guarded idiom with explicit whitespace runs at the four points where
the patterns allow flexible whitespace. -/
def idiomA (w1 w2 w3 w4 : List Char) : List Char :=
  lit0 ++ (w1 ++ (lit1 ++ (w2 ++ (lit2 ++ (w3 ++ (lit3 ++ (w4 ++ lit4)))))))

/-- The example file content of the spec scenario: exactly the guarded idiom
with its usual indentation. -/
def ex9 : List Char :=
  "const token = localStorage.getItem(\x27auth_token\x27);\n    if (!token) \x7b\n        window.location.href = \x27/\x27;\n        return;\n    \x7d".data

/-- The guarded idiom with zero whitespace between the two statements. -/
def exZero : List Char :=
  "const token = localStorage.getItem(\x27auth_token\x27);if (!token) \x7b\n        window.location.href = \x27/\x27;\n        return;\n    \x7d".data

/-- The guarded idiom with two spaces between `if` and the parenthesised
condition (varied spacing inside the second statement). -/
def exInner : List Char :=
  "const token = localStorage.getItem(\x27auth_token\x27);\n    if  (!token) \x7b\n        window.location.href = \x27/\x27;\n        return;\n    \x7d".data

/-! Section: Characterisation of the matchers -/

theorem stripLit_eq_some : ∀ (l s r : List Char), stripLit l s = some r ↔ s = l ++ r
  | [], s, r => by simp [stripLit]
  | a :: as, [], r => by simp [stripLit]
  | a :: as, c :: cs, r => by
    simp only [stripLit, List.cons_append]
    by_cases h : a = c
    · subst h
      rw [if_pos rfl, stripLit_eq_some as cs r]
      simp
    · rw [if_neg h]
      simp only [List.cons.injEq]
      constructor
      · intro hh
        exact Option.noConfusion hh
      · rintro ⟨h1, -⟩
        exact absurd h1.symm h

theorem matchP2_pre : ∀ (s r : List Char), matchP2 s = some r → lit0 <+: s :=
  fun _ r h => ⟨r, ((stripLit_eq_some _ _ _).mp h).symm⟩

theorem matchP2_none {s : List Char} : matchP2 s = none ↔ ¬ lit0 <+: s := by
  constructor
  · intro hm hpre
    obtain ⟨r, hr⟩ := hpre
    have h2 : matchP2 s = some r := (stripLit_eq_some lit0 s r).mpr hr.symm
    rw [hm] at h2
    exact Option.noConfusion h2
  · intro hnp
    cases hm : matchP2 s with
    | none => rfl
    | some r => exact absurd (matchP2_pre s r hm) hnp

theorem stripLit_le {l s r : List Char} (h : stripLit l s = some r) : r.length ≤ s.length := by
  rw [(stripLit_eq_some l s r).mp h, List.length_append]
  exact Nat.le_add_left _ _

theorem lit0_len : lit0.length = 49 := by decide

theorem matchP2_lt : ∀ (s r : List Char), matchP2 s = some r → r.length < s.length := by
  intro s r h
  rw [(stripLit_eq_some lit0 s r).mp h, List.length_append, lit0_len]
  omega

theorem dropWhile_len_le (p : Char → Bool) : ∀ l : List Char, (l.dropWhile p).length ≤ l.length
  | [] => Nat.le_refl _
  | c :: cs => by
    cases h : p c with
    | true =>
      have := dropWhile_len_le p cs
      simp only [List.dropWhile, h, List.length_cons]
      omega
    | false => simp [List.dropWhile, h]

theorem stripSp_lt {s r : List Char} (h : stripSp s = some r) : r.length < s.length := by
  match s with
  | [] => exact Option.noConfusion h
  | c :: cs =>
    simp only [stripSp] at h
    by_cases hc : isPySpace c
    · rw [if_pos hc] at h
      obtain rfl : cs.dropWhile isPySpace = r := Option.some.inj h
      calc (cs.dropWhile isPySpace).length ≤ cs.length := dropWhile_len_le isPySpace cs
        _ < (c :: cs).length := by simp
    · rw [if_neg hc] at h
      exact Option.noConfusion h

theorem matchP1_pre : ∀ (s r : List Char), matchP1 s = some r → lit0 <+: s := by
  intro s r h
  unfold matchP1 at h
  obtain ⟨s1, h1, _⟩ := Option.bind_eq_some.mp h
  exact ⟨s1, ((stripLit_eq_some _ _ _).mp h1).symm⟩

theorem matchP1_lt : ∀ (s r : List Char), matchP1 s = some r → r.length < s.length := by
  intro s r h
  unfold matchP1 at h
  obtain ⟨s1, h1, h⟩ := Option.bind_eq_some.mp h
  obtain ⟨s2, h2, h⟩ := Option.bind_eq_some.mp h
  obtain ⟨s3, h3, h⟩ := Option.bind_eq_some.mp h
  obtain ⟨s4, h4, h⟩ := Option.bind_eq_some.mp h
  obtain ⟨s5, h5, h⟩ := Option.bind_eq_some.mp h
  obtain ⟨s6, h6, h⟩ := Option.bind_eq_some.mp h
  obtain ⟨s7, h7, h⟩ := Option.bind_eq_some.mp h
  obtain ⟨s8, h8, h⟩ := Option.bind_eq_some.mp h
  have e1 : s.length = lit0.length + s1.length := by
    rw [(stripLit_eq_some _ _ _).mp h1, List.length_append]
  have l2 := stripSp_lt h2
  have l3 := stripLit_le h3
  have l4 := stripSp_lt h4
  have l5 := stripLit_le h5
  have l6 := stripSp_lt h6
  have l7 := stripLit_le h7
  have l8 := stripSp_lt h8
  have l9 := stripLit_le h
  rw [lit0_len] at e1
  omega

theorem matchP1_nil : matchP1 [] = none := by decide

theorem matchP2_nil : matchP2 [] = none := by decide

/-! Section: Equations for the substitution scanner -/

theorem substF_fuel (m : List Char → Option (List Char)) (rep : List Char)
    (hm : ∀ s r, m s = some r → r.length < s.length) :
    ∀ f1 f2 s, s.length ≤ f1 → s.length ≤ f2 → substF m rep f1 s = substF m rep f2 s := by
  intro f1
  induction f1 with
  | zero =>
    intro f2 s h1 _
    obtain rfl : s = [] := List.length_eq_zero.mp (Nat.le_zero.mp h1)
    cases f2 <;> rfl
  | succ f ih =>
    intro f2 s h1 h2
    match s with
    | [] => cases f2 <;> rfl
    | c :: cs =>
      match f2 with
      | 0 => simp at h2
      | f2 + 1 =>
        cases hmc : m (c :: cs) with
        | some rest =>
          have hlt := hm _ _ hmc
          simp only [List.length_cons] at h1 h2
          simp only [List.length_cons] at hlt
          simp only [substF, hmc]
          rw [ih f2 rest (by omega) (by omega)]
        | none =>
          simp only [List.length_cons] at h1 h2
          simp only [substF, hmc]
          rw [ih f2 cs (by omega) (by omega)]

theorem substT_nil (m : List Char → Option (List Char)) (rep : List Char) :
    substT m rep [] = [] := rfl

theorem substT_cons_some (m : List Char → Option (List Char)) (rep : List Char)
    (hm : ∀ s r, m s = some r → r.length < s.length)
    {c : Char} {cs rest : List Char} (h : m (c :: cs) = some rest) :
    substT m rep (c :: cs) = rep ++ substT m rep rest := by
  unfold substT
  simp only [List.length_cons, substF, h]
  have hlt := hm _ _ h
  simp only [List.length_cons] at hlt
  rw [substF_fuel m rep hm cs.length rest.length rest (by omega) le_rfl]

theorem substT_cons_none (m : List Char → Option (List Char)) (rep : List Char)
    {c : Char} {cs : List Char} (h : m (c :: cs) = none) :
    substT m rep (c :: cs) = c :: substT m rep cs := by
  unfold substT
  simp only [List.length_cons, substF, h]

theorem substT_some (m : List Char → Option (List Char)) (rep : List Char)
    (hm : ∀ s r, m s = some r → r.length < s.length) (hnil : m [] = none)
    {s r : List Char} (h : m s = some r) :
    substT m rep s = rep ++ substT m rep r := by
  match s with
  | [] => rw [hnil] at h; exact Option.noConfusion h
  | c :: cs => exact substT_cons_some m rep hm h

/-! Section: Overlap analysis of the pattern literal against the replacement texts.
The storage-read statement `lit0` has no nontrivial border, does not occur
inside either replacement, and shares no boundary overlap with either
replacement, so substitution can never create a new occurrence of it. -/

theorem lit0_border : ∀ y ∈ lit0.tails, y ≠ [] → y <+: lit0 → y = lit0 := by decide

theorem tailsR1_lit0 : ∀ t ∈ repl1.tails, t ≠ [] → ¬ t <+: lit0 ∧ ¬ lit0 <+: t := by decide

theorem tailsR2_lit0 : ∀ t ∈ repl2.tails, t ≠ [] → ¬ t <+: lit0 ∧ ¬ lit0 <+: t := by decide

theorem tailsLit0_R1 : ∀ y ∈ lit0.tails, y ≠ [] → ¬ y <+: repl1 := by decide

theorem tailsLit0_R2 : ∀ y ∈ lit0.tails, y ≠ [] → ¬ y <+: repl2 := by decide

theorem repl1_len49 : lit0.length ≤ repl1.length := by decide

theorem repl2_len49 : lit0.length ≤ repl2.length := by decide

theorem hcrR1 : ∀ y, y <:+ lit0 → y ≠ [] → ¬ y <+: repl1 :=
  fun y hs => tailsLit0_R1 y ((List.mem_tails _ _).mpr hs)

theorem hcrR2 : ∀ y, y <:+ lit0 → y ≠ [] → ¬ y <+: repl2 :=
  fun y hs => tailsLit0_R2 y ((List.mem_tails _ _).mpr hs)

/-! Section: Splitting prefixes and suffixes over an append -/

theorem pre_split {y a b : List Char} (h : y <+: a ++ b) :
    y <+: a ∨ ∃ y2, y = a ++ y2 ∧ y2 <+: b := by
  obtain ⟨v, hv⟩ := h
  rcases List.append_eq_append_iff.mp hv with ⟨w, hw1, _⟩ | ⟨w, hw1, hw2⟩
  · exact Or.inl ⟨w, hw1.symm⟩
  · exact Or.inr ⟨w, hw1, ⟨v, hw2.symm⟩⟩

theorem suf_split {t a b : List Char} (h : t <:+ a ++ b) :
    t <:+ b ∨ ∃ x, x <:+ a ∧ x ≠ [] ∧ t = x ++ b := by
  obtain ⟨u, hu⟩ := h
  rcases List.append_eq_append_iff.mp hu with ⟨w, hw1, hw2⟩ | ⟨w, _, hw2⟩
  · cases w with
    | nil =>
      rw [List.nil_append] at hw2
      exact Or.inl (hw2 ▸ List.suffix_refl b)
    | cons d w' =>
      exact Or.inr ⟨d :: w', ⟨u, hw1.symm⟩, List.cons_ne_nil d w', hw2⟩
  · exact Or.inl ⟨w, hw2.symm⟩

theorem pre_of_le {y a b : List Char} (h : y <+: a ++ b) (hl : y.length ≤ a.length) :
    y <+: a := by
  rcases pre_split h with h' | ⟨y2, rfl, -⟩
  · exact h'
  · rw [List.length_append] at hl
    obtain rfl : y2 = [] := List.length_eq_zero.mp (by omega)
    rw [List.append_nil]

/-! Section: Structure lemmas for the scanner -/

theorem substT_append_out (m : List Char → Option (List Char)) (rep b : List Char) :
    ∀ a, (∀ t, t <:+ a → t ≠ [] → m (t ++ b) = none) →
    substT m rep (a ++ b) = a ++ substT m rep b := by
  intro a
  induction a with
  | nil => simp
  | cons c a' ih =>
    intro hno
    have h0 : m (c :: (a' ++ b)) = none := by
      have := hno (c :: a') (List.suffix_refl _) (List.cons_ne_nil c a')
      rw [List.cons_append] at this
      exact this
    rw [List.cons_append, substT_cons_none m rep h0,
      ih (fun t ht hne => hno t (List.IsSuffix.trans ht (List.suffix_cons c a')) hne),
      List.cons_append]

theorem substT_id (m : List Char → Option (List Char)) (rep : List Char) :
    ∀ {s : List Char}, (∀ t, t <:+ s → t ≠ [] → m t = none) → substT m rep s = s := by
  intro s
  induction s with
  | nil => intro _; rfl
  | cons c cs ih =>
    intro h
    rw [substT_cons_none m rep (h _ (List.suffix_refl _) (List.cons_ne_nil c cs)),
      ih (fun t ht hne => h t (List.IsSuffix.trans ht (List.suffix_cons c cs)) hne)]

theorem substT_carve (m : List Char → Option (List Char)) (rep : List Char)
    (hm : ∀ s r, m s = some r → r.length < s.length)
    (hcr : ∀ y, y <:+ lit0 → y ≠ [] → ¬ y <+: rep)
    (hlen : lit0.length ≤ rep.length) :
    ∀ s y, y <:+ lit0 → y ≠ [] → y <+: substT m rep s → y <+: s := by
  intro s
  induction s with
  | nil =>
    intro y hsuf hne hp
    rw [substT_nil] at hp
    exact absurd (List.prefix_nil.mp hp) hne
  | cons c cs ih =>
    intro y hsuf hne hp
    cases hmc : m (c :: cs) with
    | some rest =>
      rw [substT_cons_some m rep hm hmc] at hp
      have hy : y <+: rep := pre_of_le hp (Nat.le_trans hsuf.length_le hlen)
      exact absurd hy (hcr y hsuf hne)
    | none =>
      rw [substT_cons_none m rep hmc] at hp
      cases y with
      | nil => exact absurd rfl hne
      | cons d y' =>
        rw [List.cons_prefix_cons] at hp
        obtain ⟨rfl, hp'⟩ := hp
        by_cases hy' : y' = []
        · subst hy'
          exact List.cons_prefix_cons.mpr ⟨rfl, ⟨cs, rfl⟩⟩
        · have hsuf' : y' <:+ lit0 :=
            List.IsSuffix.trans (List.suffix_cons d y') hsuf
          exact List.cons_prefix_cons.mpr ⟨rfl, ih y' hsuf' hy' hp'⟩


/-! Section: Specialised equations for the two rules -/

theorem lit0_ne_nil : lit0 ≠ [] := by decide

theorem sub1_nil : sub1 [] = [] := rfl

theorem sub2_nil : sub2 [] = [] := rfl

theorem sub1_cons_some {c : Char} {cs rest : List Char} (h : matchP1 (c :: cs) = some rest) :
    sub1 (c :: cs) = repl1 ++ sub1 rest :=
  substT_cons_some matchP1 repl1 matchP1_lt h

theorem sub1_cons_none {c : Char} {cs : List Char} (h : matchP1 (c :: cs) = none) :
    sub1 (c :: cs) = c :: sub1 cs :=
  substT_cons_none matchP1 repl1 h

theorem sub2_cons_some {c : Char} {cs rest : List Char} (h : matchP2 (c :: cs) = some rest) :
    sub2 (c :: cs) = repl2 ++ sub2 rest :=
  substT_cons_some matchP2 repl2 matchP2_lt h

theorem sub2_cons_none {c : Char} {cs : List Char} (h : matchP2 (c :: cs) = none) :
    sub2 (c :: cs) = c :: sub2 cs :=
  substT_cons_none matchP2 repl2 h

theorem sub1_some {s r : List Char} (h : matchP1 s = some r) :
    sub1 s = repl1 ++ sub1 r :=
  substT_some matchP1 repl1 matchP1_lt matchP1_nil h

theorem sub2_some {s r : List Char} (h : matchP2 s = some r) :
    sub2 s = repl2 ++ sub2 r :=
  substT_some matchP2 repl2 matchP2_lt matchP2_nil h

/-! Section: After rule B no occurrence of the storage-read statement remains -/

theorem sub2_clean_aux : ∀ (f : Nat) (s : List Char), s.length ≤ f →
    ∀ t, t <:+ sub2 s → ¬ lit0 <+: t := by
  intro f
  induction f with
  | zero =>
    intro s hs t ht hpre
    obtain rfl : s = [] := List.length_eq_zero.mp (Nat.le_zero.mp hs)
    obtain rfl : t = [] := List.suffix_nil.mp ht
    exact lit0_ne_nil (List.prefix_nil.mp hpre)
  | succ f ih =>
    intro s hs t ht hpre
    match s with
    | [] =>
      obtain rfl : t = [] := List.suffix_nil.mp ht
      exact lit0_ne_nil (List.prefix_nil.mp hpre)
    | c :: cs =>
      cases hmc : matchP2 (c :: cs) with
      | some rest =>
        rw [sub2_cons_some hmc] at ht
        have hrl := matchP2_lt _ _ hmc
        simp only [List.length_cons] at hs hrl
        rcases suf_split ht with ht' | ⟨x, hxsuf, hxne, rfl⟩
        · exact ih rest (by omega) t ht' hpre
        · rcases pre_split hpre with hx | ⟨y2, hy2, hp2⟩
          · exact (tailsR2_lit0 x ((List.mem_tails _ _).mpr hxsuf) hxne).2 hx
          · exact (tailsR2_lit0 x ((List.mem_tails _ _).mpr hxsuf) hxne).1 ⟨y2, hy2.symm⟩
      | none =>
        rw [sub2_cons_none hmc] at ht
        simp only [List.length_cons] at hs
        rcases List.suffix_cons_iff.mp ht with rfl | ht'
        · cases hl : lit0 with
          | nil => exact lit0_ne_nil hl
          | cons c0 l0t =>
            rw [hl, List.cons_prefix_cons] at hpre
            obtain ⟨rfl, hp'⟩ := hpre
            have hl0t : l0t ≠ [] := by
              intro h0
              rw [h0] at hl
              have h49 := lit0_len
              rw [hl] at h49
              exact absurd h49 (by simp)
            have hsl : l0t <:+ lit0 := by
              rw [hl]
              exact List.suffix_cons _ _
            have hcs : l0t <+: cs :=
              substT_carve matchP2 repl2 matchP2_lt hcrR2 repl2_len49 cs l0t hsl hl0t hp'
            have hfull : lit0 <+: c0 :: cs := by
              rw [hl]
              exact List.cons_prefix_cons.mpr ⟨rfl, hcs⟩
            exact (matchP2_none.mp hmc) hfull
        · exact ih cs (by omega) t ht' hpre

theorem sub2_clean (s : List Char) : ∀ t, t <:+ sub2 s → ¬ lit0 <+: t :=
  sub2_clean_aux s.length s (Nat.le_refl _)

theorem sub1_of_sub2 (s : List Char) : sub1 (sub2 s) = sub2 s := by
  apply substT_id
  intro t ht _
  cases hm : matchP1 t with
  | none => rfl
  | some r => exact absurd (matchP1_pre t r hm) (sub2_clean s t ht)

theorem sub2_of_sub2 (s : List Char) : sub2 (sub2 s) = sub2 s := by
  apply substT_id
  intro t ht _
  cases hm : matchP2 t with
  | none => rfl
  | some r => exact absurd (matchP2_pre t r hm) (sub2_clean s t ht)

theorem applyRules_idem (s : List Char) : applyRules (applyRules s) = applyRules s := by
  unfold applyRules
  rw [sub1_of_sub2 (sub1 s), sub2_of_sub2 (sub1 s)]

theorem update_same (fs : FSt) (p c : List Char) : update fs p c p = Entry.readable c := by
  simp [update]

/-! Section: The contains-scans as existence of a matching position -/

theorem containsP1_iff {s : List Char} :
    containsP1 s = true ↔ ∃ t r, t <:+ s ∧ matchP1 t = some r := by
  induction s with
  | nil =>
    simp only [containsP1]
    constructor
    · intro h
      exact absurd h (by simp)
    · rintro ⟨t, r, ht, hm⟩
      obtain rfl : t = [] := List.suffix_nil.mp ht
      rw [matchP1_nil] at hm
      exact Option.noConfusion hm
  | cons c cs ih =>
    simp only [containsP1, Bool.or_eq_true, Option.isSome_iff_exists, ih]
    constructor
    · rintro (⟨r, hr⟩ | ⟨t, r, ht, hm⟩)
      · exact ⟨c :: cs, r, List.suffix_refl _, hr⟩
      · exact ⟨t, r, List.IsSuffix.trans ht (List.suffix_cons c cs), hm⟩
    · rintro ⟨t, r, ht, hm⟩
      rcases List.suffix_cons_iff.mp ht with rfl | ht'
      · exact Or.inl ⟨r, hm⟩
      · exact Or.inr ⟨t, r, ht', hm⟩

theorem containsL_iff {s : List Char} :
    containsL s = true ↔ ∃ t r, t <:+ s ∧ matchP2 t = some r := by
  induction s with
  | nil =>
    simp only [containsL]
    constructor
    · intro h
      exact absurd h (by simp)
    · rintro ⟨t, r, ht, hm⟩
      obtain rfl : t = [] := List.suffix_nil.mp ht
      rw [matchP2_nil] at hm
      exact Option.noConfusion hm
  | cons c cs ih =>
    simp only [containsL, Bool.or_eq_true, Option.isSome_iff_exists, ih]
    constructor
    · rintro (⟨r, hr⟩ | ⟨t, r, ht, hm⟩)
      · exact ⟨c :: cs, r, List.suffix_refl _, hr⟩
      · exact ⟨t, r, List.IsSuffix.trans ht (List.suffix_cons c cs), hm⟩
    · rintro ⟨t, r, ht, hm⟩
      rcases List.suffix_cons_iff.mp ht with rfl | ht'
      · exact Or.inl ⟨r, hm⟩
      · exact Or.inr ⟨t, r, ht', hm⟩

theorem containsP1_false_iff {s : List Char} :
    containsP1 s = false ↔ ∀ t, t <:+ s → matchP1 t = none := by
  constructor
  · intro h t ht
    cases hm : matchP1 t with
    | none => rfl
    | some r =>
      have hc : containsP1 s = true := containsP1_iff.mpr ⟨t, r, ht, hm⟩
      rw [h] at hc
      exact Bool.noConfusion hc
  · intro h
    cases hc : containsP1 s with
    | false => rfl
    | true =>
      obtain ⟨t, r, ht, hm⟩ := containsP1_iff.mp hc
      rw [h t ht] at hm
      exact Option.noConfusion hm

theorem containsL_false_iff {s : List Char} :
    containsL s = false ↔ ∀ t, t <:+ s → matchP2 t = none := by
  constructor
  · intro h t ht
    cases hm : matchP2 t with
    | none => rfl
    | some r =>
      have hc : containsL s = true := containsL_iff.mpr ⟨t, r, ht, hm⟩
      rw [h] at hc
      exact Bool.noConfusion hc
  · intro h
    cases hc : containsL s with
    | false => rfl
    | true =>
      obtain ⟨t, r, ht, hm⟩ := containsL_iff.mp hc
      rw [h t ht] at hm
      exact Option.noConfusion hm

theorem containsL_infix {s : List Char} : containsL s = true ↔ lit0 <:+: s := by
  rw [containsL_iff]
  constructor
  · rintro ⟨t, r, ht, hm⟩
    have he : t = lit0 ++ r := (stripLit_eq_some _ _ _).mp hm
    obtain ⟨u, hu⟩ := ht
    exact ⟨u, r, by rw [← hu, he, List.append_assoc]⟩
  · rintro ⟨u, v, huv⟩
    refine ⟨lit0 ++ v, v, ⟨u, ?_⟩, (stripLit_eq_some _ _ _).mpr rfl⟩
    rw [← huv, List.append_assoc]

/-! Section: Concrete filesystems used by the closed witness statements -/

/-- The path of the first configured file. -/
def pW1 : List Char := mkPath "billings.js".data

/-- A one-file filesystem holding the spec example content. -/
def fsW1 : FSt := fun q => if q = pW1 then Entry.readable ex9 else Entry.absent

/-- A one-file filesystem holding just the bare storage-read statement. -/
def fsW10 : FSt := fun q => if q = pW1 then Entry.readable lit0 else Entry.absent

/-- A one-file filesystem holding content that neither rule matches. -/
def fsW5 : FSt := fun q => if q = pW1 then Entry.readable "hello".data else Entry.absent

/-- A filesystem with no files at all. -/
def fsAbs : FSt := fun _ => Entry.absent

/-- A filesystem on which every read raises. -/
def fsUnr : FSt := fun _ => Entry.unreadable

/-- Claim C1: the rewrite transformation is idempotent — applying the rule
sequence (rule A then rule B) twice yields the same text as applying it once;
consequently a second `fix_file` run on an already-processed file reports it
unchanged (no write, a no-changes line). -/
theorem claim_c1 :
    (∀ s, applyRules (applyRules s) = applyRules s) ∧
    (∀ fs p c, fs p = Entry.readable c →
      fixFile (fsAfter fs p) p =
        Except.ok (false, [], [noChangeLine p], fsAfter fs p)) := by
  refine ⟨applyRules_idem, ?_⟩
  intro fs p c hc
  by_cases he : applyRules c = c
  · have h1 : fixFile fs p = Except.ok (false, [], [noChangeLine p], fs) := by
      simp only [fixFile, hc]
      rw [if_pos he]
    have h2 : fsAfter fs p = fs := by
      unfold fsAfter
      rw [h1]
    rw [h2, h1]
  · have h1 : fixFile fs p =
        Except.ok (true, [(p, applyRules c)], [fixedLine p], update fs p (applyRules c)) := by
      simp only [fixFile, hc]
      rw [if_neg he]
    have h2 : fsAfter fs p = update fs p (applyRules c) := by
      unfold fsAfter
      rw [h1]
    rw [h2]
    simp only [fixFile, update_same]
    rw [if_pos (applyRules_idem c)]

/-- Witness for C1 at a concrete one-file filesystem. -/
theorem claim_c1_witness :
    fsW1 pW1 = Entry.readable ex9 ∧
    fixFile (fsAfter fsW1 pW1) pW1 =
      Except.ok (false, [], [noChangeLine pW1], fsAfter fsW1 pW1) :=
  ⟨rfl, claim_c1.2 fsW1 pW1 ex9 rfl⟩

/-- Claim C10: the output of rule A followed by rule B never contains the
literal storage-read statement; consequently any readable content containing
it is changed by the transformation and reported as rewritten. -/
theorem claim_c10 :
    (∀ s, containsL (applyRules s) = false) ∧
    (∀ s, containsL s = true → applyRules s ≠ s) ∧
    (∀ fs p c, fs p = Entry.readable c → containsL c = true →
      fixFile fs p =
        Except.ok (true, [(p, applyRules c)], [fixedLine p], update fs p (applyRules c))) := by
  have h1 : ∀ s, containsL (applyRules s) = false := by
    intro s
    rw [containsL_false_iff]
    intro t ht
    cases hm : matchP2 t with
    | none => rfl
    | some r => exact absurd (matchP2_pre t r hm) (sub2_clean (sub1 s) t ht)
  have h2 : ∀ s, containsL s = true → applyRules s ≠ s := by
    intro s hs heq
    have hh := h1 s
    rw [heq, hs] at hh
    exact Bool.noConfusion hh
  refine ⟨h1, h2, ?_⟩
  intro fs p c hc hl
  simp only [fixFile, hc]
  rw [if_neg (h2 c hl)]

/-- Witness for C10 at the bare storage-read statement as file content. -/
theorem claim_c10_witness :
    containsL lit0 = true ∧ applyRules lit0 ≠ lit0 ∧
    fixFile fsW10 pW1 =
      Except.ok (true, [(pW1, applyRules lit0)], [fixedLine pW1],
        update fsW10 pW1 (applyRules lit0)) :=
  ⟨by decide, claim_c10.2.1 lit0 (by decide), claim_c10.2.2 fsW10 pW1 lit0 rfl (by decide)⟩

/-- Claim C5: if neither pattern matches anywhere in a readable file content,
the transformation returns the content unchanged byte-for-byte, no write
occurs, and the file is still reported with a no-changes line. -/
theorem claim_c5 :
    ∀ fs p c, fs p = Entry.readable c → containsP1 c = false → containsL c = false →
      applyRules c = c ∧ fixFile fs p = Except.ok (false, [], [noChangeLine p], fs) := by
  intro fs p c hc h1 h2
  have e1 : sub1 c = c :=
    substT_id matchP1 repl1 (fun t ht _ => (containsP1_false_iff.mp h1) t ht)
  have e2 : sub2 c = c :=
    substT_id matchP2 repl2 (fun t ht _ => (containsL_false_iff.mp h2) t ht)
  have e : applyRules c = c := by
    unfold applyRules
    rw [e1, e2]
  refine ⟨e, ?_⟩
  simp only [fixFile, hc]
  rw [if_pos e]

/-- Witness for C5 at content matched by neither rule. -/
theorem claim_c5_witness :
    fsW5 pW1 = Entry.readable "hello".data ∧
    containsP1 "hello".data = false ∧ containsL "hello".data = false ∧
    (applyRules "hello".data = "hello".data ∧
      fixFile fsW5 pW1 = Except.ok (false, [], [noChangeLine pW1], fsW5)) :=
  ⟨rfl, by decide, by decide, claim_c5 fsW5 pW1 "hello".data rfl (by decide) (by decide)⟩

/-- Claim C4: a readable file is written back exactly when the transformed
text differs from the original; every `fix_file` call performs at most one
write and prints exactly one console line. -/
theorem claim_c4 :
    ∀ fs p c, fs p = Entry.readable c →
      ∃ b w o f2, fixFile fs p = Except.ok (b, w, o, f2) ∧
        (w ≠ [] ↔ applyRules c ≠ c) ∧ w.length ≤ 1 ∧ o.length = 1 := by
  intro fs p c hc
  by_cases he : applyRules c = c
  · refine ⟨false, [], [noChangeLine p], fs, ?_, ?_, by simp, by simp⟩
    · simp only [fixFile, hc]
      rw [if_pos he]
    · simp [he]
  · refine ⟨true, [(p, applyRules c)], [fixedLine p], update fs p (applyRules c),
      ?_, ?_, by simp, by simp⟩
    · simp only [fixFile, hc]
      rw [if_neg he]
    · simp [he]

/-- Witness for C4 at a concrete one-file filesystem. -/
theorem claim_c4_witness :
    fsW1 pW1 = Entry.readable ex9 ∧
    ∃ b w o f2, fixFile fsW1 pW1 = Except.ok (b, w, o, f2) ∧
      (w ≠ [] ↔ applyRules ex9 ≠ ex9) ∧ w.length ≤ 1 ∧ o.length = 1 :=
  ⟨rfl, claim_c4 fsW1 pW1 ex9 rfl⟩

/-! Section: Rule ordering matters: the A-then-B result differs from B-then-A on
any text containing the guarded idiom -/

theorem repl1_head : repl1.head? = some '/' := rfl

theorem repl2_head : repl2.head? = some 'c' := rfl

theorem append_head_ne {cA cB : Char} {a b x y : List Char}
    (ha : a.head? = some cA) (hb : b.head? = some cB) (hne : cA ≠ cB) :
    a ++ x ≠ b ++ y := by
  intro h
  have hh := congrArg List.head? h
  rw [List.head?_append, List.head?_append, ha, hb, Option.or_some, Option.or_some] at hh
  exact hne (Option.some.inj hh)

theorem sub2_append_out (b a : List Char)
    (h : ∀ t, t <:+ a → t ≠ [] → matchP2 (t ++ b) = none) :
    sub2 (a ++ b) = a ++ sub2 b :=
  substT_append_out matchP2 repl2 b a h

theorem noMatchP2_in_R1 (b : List Char) :
    ∀ t, t <:+ repl1 → t ≠ [] → matchP2 (t ++ b) = none := by
  intro t ht hne
  rw [matchP2_none]
  intro hp
  rcases pre_split hp with hx | ⟨y2, hy2, -⟩
  · exact (tailsR1_lit0 t ((List.mem_tails _ _).mpr ht) hne).2 hx
  · exact (tailsR1_lit0 t ((List.mem_tails _ _).mpr ht) hne).1 ⟨y2, hy2.symm⟩

theorem orderMatters_aux : ∀ (f : Nat) (s : List Char), s.length ≤ f →
    containsP1 s = true → sub2 (sub1 s) ≠ sub2 s := by
  intro f
  induction f with
  | zero =>
    intro s hs hcp
    obtain rfl : s = [] := List.length_eq_zero.mp (Nat.le_zero.mp hs)
    exact absurd hcp (by decide)
  | succ f ih =>
    intro s hs hcp
    match s with
    | [] => exact absurd hcp (by decide)
    | c :: cs =>
      cases hmc : matchP1 (c :: cs) with
      | some rest =>
        rw [sub1_cons_some hmc,
          sub2_append_out (sub1 rest) repl1 (noMatchP2_in_R1 (sub1 rest))]
        obtain ⟨s2, hs2⟩ := matchP1_pre _ _ hmc
        rw [sub2_some ((stripLit_eq_some lit0 (c :: cs) s2).mpr hs2.symm)]
        exact append_head_ne repl1_head repl2_head (by decide)
      | none =>
        cases hmc2 : matchP2 (c :: cs) with
        | some rest2 =>
          have hs' : c :: cs = lit0 ++ rest2 := (stripLit_eq_some _ _ _).mp hmc2
          have hlen : rest2.length ≤ f := by
            have := congrArg List.length hs'
            rw [List.length_append, lit0_len] at this
            simp only [List.length_cons] at this hs
            omega
          have hcp2 : containsP1 rest2 = true := by
            obtain ⟨t, r, ht, hm⟩ := containsP1_iff.mp hcp
            rw [hs'] at ht
            rcases suf_split ht with ht' | ⟨x, hxsuf, hxne, rfl⟩
            · exact containsP1_iff.mpr ⟨t, r, ht', hm⟩
            · exfalso
              have hp := matchP1_pre _ _ hm
              have hxl : x = lit0 := by
                rcases pre_split hp with hx | ⟨y2, hy2, -⟩
                · exact List.IsSuffix.eq_of_length hxsuf
                    (Nat.le_antisymm hxsuf.length_le hx.length_le)
                · exact lit0_border x ((List.mem_tails _ _).mpr hxsuf) hxne ⟨y2, hy2.symm⟩
              subst hxl
              rw [← hs'] at hm
              rw [hmc] at hm
              exact Option.noConfusion hm
          have hsub1 : sub1 (c :: cs) = lit0 ++ sub1 rest2 := by
            rw [hs']
            apply substT_append_out matchP1 repl1 rest2 lit0
            intro t ht hne
            cases hm2 : matchP1 (t ++ rest2) with
            | none => rfl
            | some r2 =>
              exfalso
              have hp := matchP1_pre _ _ hm2
              have htl : t = lit0 := by
                rcases pre_split hp with hx | ⟨y2, hy2, -⟩
                · exact List.IsSuffix.eq_of_length ht
                    (Nat.le_antisymm ht.length_le hx.length_le)
                · exact lit0_border t ((List.mem_tails _ _).mpr ht) hne ⟨y2, hy2.symm⟩
              subst htl
              rw [← hs'] at hm2
              rw [hmc] at hm2
              exact Option.noConfusion hm2
          rw [hsub1, sub2_some (show matchP2 (lit0 ++ sub1 rest2) = some (sub1 rest2) from
            (stripLit_eq_some _ _ _).mpr rfl)]
          rw [sub2_some hmc2]
          intro h
          exact ih rest2 hlen hcp2 (List.append_cancel_left h)
        | none =>
          have hcs : containsP1 cs = true := by
            simp only [containsP1, Bool.or_eq_true] at hcp
            rcases hcp with h1 | h2
            · rw [hmc] at h1
              exact absurd h1 (by simp)
            · exact h2
          have hnm : matchP2 (c :: sub1 cs) = none := by
            rw [matchP2_none]
            intro hp
            cases hl : lit0 with
            | nil => exact lit0_ne_nil hl
            | cons c0 l0t =>
              rw [hl, List.cons_prefix_cons] at hp
              obtain ⟨rfl, hp'⟩ := hp
              have hl0t : l0t ≠ [] := by
                intro h0
                rw [h0] at hl
                have h49 := lit0_len
                rw [hl] at h49
                exact absurd h49 (by simp)
              have hsl : l0t <:+ lit0 := by
                rw [hl]
                exact List.suffix_cons _ _
              have hcs2 : l0t <+: cs :=
                substT_carve matchP1 repl1 matchP1_lt hcrR1 repl1_len49 cs l0t hsl hl0t hp'
              have hfull : lit0 <+: c0 :: cs := by
                rw [hl]
                exact List.cons_prefix_cons.mpr ⟨rfl, hcs2⟩
              exact (matchP2_none.mp hmc2) hfull
          rw [sub1_cons_none hmc, sub2_cons_none hnm, sub2_cons_none hmc2]
          intro h
          simp only [List.cons.injEq, true_and] at h
          simp only [List.length_cons] at hs
          exact ih cs (by omega) hcs h

theorem orderMatters (s : List Char) (h : containsP1 s = true) :
    sub2 (sub1 s) ≠ sub2 s :=
  orderMatters_aux s.length s (Nat.le_refl _) h

/-- Claim C2: rule ordering is significant — on any text containing the full
guarded idiom, applying rule B before rule A yields a different result from
applying rule A before rule B, and the tool always produces the A-first
result. -/
theorem claim_c2 :
    ∀ s, containsP1 s = true →
      applyRules s = sub2 (sub1 s) ∧ sub2 (sub1 s) ≠ sub1 (sub2 s) := by
  intro s h
  refine ⟨rfl, ?_⟩
  rw [sub1_of_sub2 s]
  exact orderMatters s h

/-- Witness for C2 at the spec example content. -/
theorem claim_c2_witness :
    containsP1 ex9 = true ∧
    (applyRules ex9 = sub2 (sub1 ex9) ∧ sub2 (sub1 ex9) ≠ sub1 (sub2 ex9)) :=
  ⟨by decide, claim_c2 ex9 (by decide)⟩

/-! Section: Rule A fires on the idiom whenever the four separator points carry
nonempty whitespace runs -/

theorem stripLit_self_append (l r : List Char) : stripLit l (l ++ r) = some r :=
  (stripLit_eq_some l (l ++ r) r).mpr rfl

theorem dropWhile_append_all (p : Char → Bool) :
    ∀ (w r : List Char), (∀ c ∈ w, p c = true) → (w ++ r).dropWhile p = r.dropWhile p
  | [], _, _ => rfl
  | c :: w', r, h => by
    have hc : p c = true := h c (List.mem_cons_self c w')
    simp only [List.cons_append, List.dropWhile, hc]
    exact dropWhile_append_all p w' r (fun d hd => h d (List.mem_cons_of_mem c hd))

theorem dropWhile_head_false (p : Char → Bool) (r : List Char)
    (h : ∀ d, r.head? = some d → p d = false) : r.dropWhile p = r := by
  cases r with
  | nil => rfl
  | cons d r' =>
    have hd := h d rfl
    simp [List.dropWhile, hd]

theorem stripSp_run {w r : List Char} (hw : w ≠ []) (hall : ∀ c ∈ w, isPySpace c = true)
    (d0 : Char) (hd0 : r.head? = some d0) (hnd : isPySpace d0 = false) :
    stripSp (w ++ r) = some r := by
  cases w with
  | nil => exact absurd rfl hw
  | cons c w' =>
    have hc : isPySpace c = true := hall c (List.mem_cons_self _ _)
    simp only [List.cons_append, stripSp, hc, if_true]
    rw [dropWhile_append_all isPySpace w' r (fun d hd => hall d (List.mem_cons_of_mem c hd)),
      dropWhile_head_false isPySpace r (by
        intro d hd
        rw [hd0] at hd
        rw [← Option.some.inj hd]
        exact hnd)]

theorem matchP1_idiom (w1 w2 w3 w4 : List Char)
    (h1 : w1 ≠ []) (a1 : ∀ c ∈ w1, isPySpace c = true)
    (h2 : w2 ≠ []) (a2 : ∀ c ∈ w2, isPySpace c = true)
    (h3 : w3 ≠ []) (a3 : ∀ c ∈ w3, isPySpace c = true)
    (h4 : w4 ≠ []) (a4 : ∀ c ∈ w4, isPySpace c = true) :
    matchP1 (idiomA w1 w2 w3 w4) = some [] := by
  have e0 : stripLit lit0 (idiomA w1 w2 w3 w4) =
      some (w1 ++ (lit1 ++ (w2 ++ (lit2 ++ (w3 ++ (lit3 ++ (w4 ++ lit4))))))) :=
    stripLit_self_append _ _
  have e1 : stripSp (w1 ++ (lit1 ++ (w2 ++ (lit2 ++ (w3 ++ (lit3 ++ (w4 ++ lit4))))))) =
      some (lit1 ++ (w2 ++ (lit2 ++ (w3 ++ (lit3 ++ (w4 ++ lit4)))))) :=
    stripSp_run h1 a1 'i' rfl (by decide)
  have e2 : stripLit lit1 (lit1 ++ (w2 ++ (lit2 ++ (w3 ++ (lit3 ++ (w4 ++ lit4)))))) =
      some (w2 ++ (lit2 ++ (w3 ++ (lit3 ++ (w4 ++ lit4))))) := stripLit_self_append _ _
  have e3 : stripSp (w2 ++ (lit2 ++ (w3 ++ (lit3 ++ (w4 ++ lit4))))) =
      some (lit2 ++ (w3 ++ (lit3 ++ (w4 ++ lit4)))) :=
    stripSp_run h2 a2 'w' rfl (by decide)
  have e4 : stripLit lit2 (lit2 ++ (w3 ++ (lit3 ++ (w4 ++ lit4)))) =
      some (w3 ++ (lit3 ++ (w4 ++ lit4))) := stripLit_self_append _ _
  have e5 : stripSp (w3 ++ (lit3 ++ (w4 ++ lit4))) = some (lit3 ++ (w4 ++ lit4)) :=
    stripSp_run h3 a3 'r' rfl (by decide)
  have e6 : stripLit lit3 (lit3 ++ (w4 ++ lit4)) = some (w4 ++ lit4) :=
    stripLit_self_append _ _
  have e7 : stripSp (w4 ++ lit4) = some lit4 :=
    stripSp_run h4 a4 '\x7d' rfl (by decide)
  have e8 : stripLit lit4 lit4 = some [] := by decide
  unfold matchP1
  rw [e0, Option.some_bind, e1, Option.some_bind, e2, Option.some_bind, e3,
    Option.some_bind, e4, Option.some_bind, e5, Option.some_bind, e6,
    Option.some_bind, e7, Option.some_bind, e8]

/-- Claim C8 (amended): the matcher of rule A accepts the guarded two-statement
idiom whenever its five literal fragments are separated by arbitrary nonempty
whitespace runs at the four flexible points, and the substitution of rule A then
fires; the spacing inside each fragment is fixed, and at least one whitespace
character between the two statements is required. -/
theorem claim_c8 :
    ∀ w1 w2 w3 w4 : List Char,
      w1 ≠ [] → (∀ c ∈ w1, isPySpace c = true) →
      w2 ≠ [] → (∀ c ∈ w2, isPySpace c = true) →
      w3 ≠ [] → (∀ c ∈ w3, isPySpace c = true) →
      w4 ≠ [] → (∀ c ∈ w4, isPySpace c = true) →
      matchP1 (idiomA w1 w2 w3 w4) = some [] ∧ sub1 (idiomA w1 w2 w3 w4) = repl1 := by
  intro w1 w2 w3 w4 h1 a1 h2 a2 h3 a3 h4 a4
  have hm := matchP1_idiom w1 w2 w3 w4 h1 a1 h2 a2 h3 a3 h4 a4
  refine ⟨hm, ?_⟩
  rw [sub1_some hm, sub1_nil, List.append_nil]

/-- Counterexample for C8 as stated: with zero whitespace between the two
statements (exZero), or with doubled spacing inside the guard header
(exInner), rule A matches nowhere and its substitution leaves the text
unchanged. -/
theorem claim_c8_counterexample :
    (matchP1 exZero = none ∧ sub1 exZero = exZero ∧ containsP1 exZero = false) ∧
    (matchP1 exInner = none ∧ sub1 exInner = exInner ∧ containsP1 exInner = false) :=
  ⟨⟨by decide, by decide, by decide⟩, ⟨by decide, by decide, by decide⟩⟩

/-- Witness for C8 at single-newline separator runs. -/
theorem claim_c8_witness :
    (("\n".data : List Char) ≠ [] ∧ ∀ c ∈ ("\n".data : List Char), isPySpace c = true) ∧
    (matchP1 (idiomA "\n".data "\n".data "\n".data "\n".data) = some [] ∧
      sub1 (idiomA "\n".data "\n".data "\n".data "\n".data) = repl1) :=
  ⟨⟨by decide, by decide⟩,
    claim_c8 "\n".data "\n".data "\n".data "\n".data (by decide) (by decide) (by decide)
      (by decide) (by decide) (by decide) (by decide) (by decide)⟩

/-- Claim C9: on a file whose content is exactly the guarded idiom with its
usual indentation, the tool rewrites it to the replacement of rule A and reports
the fixed line, and a second run on the result reports no changes. -/
theorem claim_c9 :
    applyRules ex9 = repl1 ∧
    fixOut fsW1 pW1 = some (true, [(pW1, repl1)], [fixedLine pW1]) ∧
    fixOut (fsAfter fsW1 pW1) pW1 = some (false, [], [noChangeLine pW1]) :=
  ⟨by decide, by decide, by decide⟩

/-! Section: Line classification for the aggregate count -/

theorem isFixB_fixed (p : List Char) : isFixB (fixedLine p) = true := rfl

theorem isFixB_noChange (p : List Char) : isFixB (noChangeLine p) = false := rfl

theorem isFixB_notFound (p : List Char) : isFixB (notFoundLine p) = false := rfl

theorem isFixB_summary (n : Nat) : isFixB (summaryLine n) = false := rfl

theorem isSumB_fixed (p : List Char) : isSumB (fixedLine p) = false := rfl

theorem isSumB_noChange (p : List Char) : isSumB (noChangeLine p) = false := rfl

theorem isSumB_notFound (p : List Char) : isSumB (notFoundLine p) = false := rfl

theorem isSumB_summary (n : Nat) : isSumB (summaryLine n) = true := rfl


theorem fixFile_ok_shape {fs : FSt} {p : List Char} {b : Bool}
    {w : List (List Char × List Char)} {o : List (List Char)} {f2 : FSt}
    (h : fixFile fs p = Except.ok (b, w, o, f2)) :
    (b = false ∧ o = [noChangeLine p]) ∨ (b = true ∧ o = [fixedLine p]) := by
  cases hc : fs p with
  | readable c =>
    simp only [fixFile, hc] at h
    by_cases he : applyRules c = c
    · rw [if_pos he] at h
      simp only [Except.ok.injEq, Prod.mk.injEq] at h
      exact Or.inl ⟨h.1.symm, h.2.2.1.symm⟩
    · rw [if_neg he] at h
      simp only [Except.ok.injEq, Prod.mk.injEq] at h
      exact Or.inr ⟨h.1.symm, h.2.2.1.symm⟩
  | absent =>
    simp only [fixFile, hc] at h
    exact Except.noConfusion h
  | unreadable =>
    simp only [fixFile, hc] at h
    exact Except.noConfusion h

theorem loop_count : ∀ (names : List (List Char)) (fs : FSt) (acc : Nat)
    (ls : List (List Char)) (n : Nat) (fs2 : FSt),
    loop fs names acc = (ls, some (n, fs2)) →
    n = acc + ls.countP isFixB ∧ ls.countP isSumB = 0 := by
  intro names
  induction names with
  | nil =>
    intro fs acc ls n fs2 h
    simp only [loop, Prod.mk.injEq, Option.some.injEq] at h
    obtain ⟨h1, h2, -⟩ := h
    subst h1
    subst h2
    simp [List.countP_nil]
  | cons nm rest ih =>
    intro fs acc ls n fs2 h
    simp only [loop] at h
    by_cases hex : pexists fs (mkPath nm) = true
    · rw [if_pos hex] at h
      cases hf : fixFile fs (mkPath nm) with
      | error e =>
        rw [hf] at h
        simp only [Prod.mk.injEq] at h
        exact Option.noConfusion h.2
      | ok res =>
        obtain ⟨changed, w, out, fs3⟩ := res
        rw [hf] at h
        simp only [Prod.mk.injEq] at h
        obtain ⟨h1, h2⟩ := h
        subst h1
        obtain ⟨hr1, hr2⟩ := ih fs3 (if changed then acc + 1 else acc)
          (loop fs3 rest (if changed then acc + 1 else acc)).1 n fs2
          (by rw [← h2])
        rcases fixFile_ok_shape hf with ⟨hb, ho⟩ | ⟨hb, ho⟩
        · subst hb
          subst ho
          rw [if_neg (by decide : ¬ (false = true))] at hr1 hr2 ⊢
          constructor
          · rw [List.countP_append, List.countP_cons, List.countP_nil, isFixB_noChange,
              if_neg (by decide : ¬ (false = true))]
            omega
          · rw [List.countP_append, List.countP_cons, List.countP_nil, isSumB_noChange,
              if_neg (by decide : ¬ (false = true))]
            omega
        · subst hb
          subst ho
          rw [if_pos (by decide : (true = true))] at hr1 hr2 ⊢
          constructor
          · rw [List.countP_append, List.countP_cons, List.countP_nil, isFixB_fixed,
              if_pos (by decide : (true = true))]
            omega
          · rw [List.countP_append, List.countP_cons, List.countP_nil, isSumB_fixed,
              if_neg (by decide : ¬ (false = true))]
            omega
    · rw [if_neg hex] at h
      simp only [Prod.mk.injEq] at h
      obtain ⟨h1, h2⟩ := h
      subst h1
      obtain ⟨hr1, hr2⟩ := ih fs acc (loop fs rest acc).1 n fs2 (by rw [← h2])
      constructor
      · rw [List.countP_cons, isFixB_notFound, if_neg (by decide : ¬ (false = true))]
        omega
      · rw [List.countP_cons, isSumB_notFound, if_neg (by decide : ¬ (false = true))]
        omega

/-- Claim C3: when the run over the fixed nine-file list completes normally,
exactly one summary line is printed, it is the last line, and its count `N`
equals exactly the number of rewritten-file lines; not-found and unchanged
files do not contribute to `N`. -/
theorem claim_c3 :
    ∀ fs ls n, runMain fs = (ls, some n) →
      ls.countP isSumB = 1 ∧ ls.getLast? = some (summaryLine n) ∧
      n = ls.countP isFixB := by
  intro fs ls n h
  unfold runMain at h
  cases hl : loop fs filesToFix 0 with
  | mk ls0 r =>
    rw [hl] at h
    cases r with
    | none =>
      simp only [Prod.mk.injEq] at h
      exact Option.noConfusion h.2
    | some pr =>
      obtain ⟨n0, fs2⟩ := pr
      simp only [Prod.mk.injEq, Option.some.injEq] at h
      obtain ⟨h1, h2⟩ := h
      subst h2
      subst h1
      obtain ⟨hc1, hc2⟩ := loop_count filesToFix fs 0 ls0 _ fs2 hl
      refine ⟨?_, List.getLast?_concat _, ?_⟩
      · rw [List.countP_append, hc2, List.countP_cons, List.countP_nil, isSumB_summary,
          if_pos (by decide : (true = true))]
      · rw [List.countP_append, List.countP_cons, List.countP_nil, isFixB_summary,
          if_neg (by decide : ¬ (false = true))]
        omega

/-- Witness for C3 at the empty filesystem (all nine files missing). -/
theorem claim_c3_witness :
    runMain fsAbs = ((runMain fsAbs).1, some 0) ∧
    ((runMain fsAbs).1.countP isSumB = 1 ∧
      (runMain fsAbs).1.getLast? = some (summaryLine 0) ∧
      0 = (runMain fsAbs).1.countP isFixB) :=
  ⟨rfl, claim_c3 fsAbs (runMain fsAbs).1 0 rfl⟩

/-- Claim C6: a configured name whose path does not exist produces the
not-found line, raises no exception, leaves the running count unchanged, and
processing continues with the remaining names exactly as if the entry were
skipped. -/
theorem claim_c6 :
    ∀ (fs : FSt) (nm : List Char) (rest : List (List Char)) (acc : Nat),
      fs (mkPath nm) = Entry.absent →
      loop fs (nm :: rest) acc =
        (notFoundLine (mkPath nm) :: (loop fs rest acc).1, (loop fs rest acc).2) := by
  intro fs nm rest acc h
  have hex : pexists fs (mkPath nm) = false := by
    unfold pexists
    rw [h]
  simp only [loop, hex]
  rw [if_neg (by decide : ¬ (false = true))]

/-- Witness for C6 at the empty filesystem. -/
theorem claim_c6_witness :
    fsAbs (mkPath "billings.js".data) = Entry.absent ∧
    loop fsAbs ("billings.js".data :: []) 0 =
      (notFoundLine (mkPath "billings.js".data) :: (loop fsAbs [] 0).1,
        (loop fsAbs [] 0).2) :=
  ⟨rfl, claim_c6 fsAbs "billings.js".data [] 0 rfl⟩

/-- Claim C7: a read/decode/write failure on an existing file makes the
per-file operation return an error that no part of the tool catches: the loop
stops at the failing entry, the remaining names are not processed, and the
run ends without printing the summary line. -/
theorem claim_c7 :
    (∀ fs p, fs p = Entry.unreadable → fixFile fs p = Except.error ()) ∧
    (∀ (fs : FSt) (nm : List Char) (rest : List (List Char)) (acc : Nat),
      fs (mkPath nm) = Entry.unreadable →
      loop fs (nm :: rest) acc = ([], none)) ∧
    (∀ fs, (loop fs filesToFix 0).2 = none →
      runMain fs = ((loop fs filesToFix 0).1, none)) := by
  refine ⟨?_, ?_, ?_⟩
  · intro fs p h
    simp only [fixFile, h]
  · intro fs nm rest acc h
    have hex : pexists fs (mkPath nm) = true := by
      unfold pexists
      rw [h]
    have hf : fixFile fs (mkPath nm) = Except.error () := by
      simp only [fixFile, h]
    simp only [loop, hex, hf]
    simp
  · intro fs h
    unfold runMain
    cases hl : loop fs filesToFix 0 with
    | mk ls0 r =>
      rw [hl] at h
      cases r with
      | none => rfl
      | some pr =>
        simp only at h
        exact Option.noConfusion h

/-- Witness for C7 at a filesystem on which every read fails. -/
theorem claim_c7_witness :
    fixFile fsUnr pW1 = Except.error () ∧
    loop fsUnr ("billings.js".data :: []) 0 = ([], none) ∧
    runMain fsUnr = ((loop fsUnr filesToFix 0).1, none) :=
  ⟨claim_c7.1 fsUnr pW1 rfl, claim_c7.2.1 fsUnr "billings.js".data [] 0 rfl,
    claim_c7.2.2 fsUnr rfl⟩
